import Mathlib

set_option maxRecDepth 4000

/-!
Verification of the simulated-annealing TSP repository (src/main.rs).

The distance matrix `Vec<Vec<u16>>` is modelled as `List (List Nat)`; the
widened `u64` cost accumulator is modelled as `Nat`.  Rust panics (out of
bounds indexing, `Option::unwrap` on `None`) are modelled explicitly by the
result type `PRes`: `.panicked` is a panic, `.ret a` is a normal return of
`a`.  The thread-local random number generator is modelled by explicit
function parameters: each call of `Vec::shuffle` becomes an application of a
caller-supplied `shuffle` function (assumed, where needed, to permute its
input, which is the only fact the distribution of a uniform shuffle
guarantees about a single outcome), and each `gen_range` call of the map
generator becomes an application of a `draw` function.
-/

/-- Result of running a piece of Rust code that may panic. -/
inductive PRes (α : Type) where
  | panicked : PRes α
  | ret : α → PRes α
deriving DecidableEq, Repr

abbrev CityMap := List (List Nat)

/-- `fn valid_city_map(intercity_map: &Vec<Vec<u16>>) -> bool`:
`intercity_map.len() != 0 && intercity_map[0].len() == intercity_map.len()`.
Only the FIRST row's length is compared with the row count. -/
def valid_city_map (m : CityMap) : Bool :=
  (m.length != 0) && ((m.getD 0 []).length == m.length)

/-- The Rust indexing `intercity_map[i][j]`, which panics when out of
bounds. -/
def mat_lookup (m : CityMap) (i j : Nat) : PRes Nat :=
  match m.get? i with
  | none => .panicked
  | some row =>
    match row.get? j with
    | none => .panicked
    | some v => .ret v

/-- The consecutive pairs of a path: `path.windows(2)` of the source,
pair `k` being `(path[k], path[k+1])`. -/
def pairsOf (p : List Nat) : List (Nat × Nat) :=
  p.zip p.tail

/-- `path.windows(2).map(|e| map[e[0]][e[1]] as u64).sum()`: left-to-right
sum of the edge lookups, propagating a panic of any lookup. -/
def sumEdges (m : CityMap) : List (Nat × Nat) → PRes Nat
  | [] => .ret 0
  | e :: es =>
    match mat_lookup m e.1 e.2 with
    | .panicked => .panicked
    | .ret v =>
      match sumEdges m es with
      | .panicked => .panicked
      | .ret s => .ret (v + s)

/-- `fn path_cost(intercity_map, path) -> Option<u64>`: `None` when the
validity check fails, otherwise `Some` of the summed edge weights (panicking
on an out-of-bounds lookup). -/
def path_cost (m : CityMap) (p : List Nat) : PRes (Option Nat) :=
  if valid_city_map m = false then .ret none
  else
    match sumEdges m (pairsOf p) with
    | .panicked => .panicked
    | .ret s => .ret (some s)

/-- `u64::cmp` (the matrix weights and costs are unsigned integers with the
numeric order). -/
def cmpNat (a b : Nat) : Ordering :=
  if a < b then .lt else if a = b then .eq else .gt

/-- `Option::<u64>::cmp` as derived in Rust: `None` is below every
`Some`. -/
def cmpCost : Option Nat → Option Nat → Ordering
  | none, none => .eq
  | none, some _ => .lt
  | some _, none => .gt
  | some a, some b => cmpNat a b

/-- One entry of the generated map.  The source's double loop fills
`m[i][j]` with `0` on the diagonal, a fresh `gen_range(low..high)` draw for
`i < j`, and copies the already-computed `m[j][i]` (which was the draw for
the pair `(j, i)`) when `i > j`; `draw i j` stands for the `gen_range`
result of the generating pass over the pair `(i, j)` with `i < j`. -/
def gen_entry (draw : Nat → Nat → Nat) (i j : Nat) : Nat :=
  if i = j then 0 else if j < i then draw j i else draw i j

/-- `fn generate_map(num_cities: u16, weight_range: (u16, u16)) ->
Option<Vec<Vec<u16>>>`: rejects the range when `high <= low`, otherwise
builds the symmetric `num_cities × num_cities` map. -/
def generate_map (draw : Nat → Nat → Nat) (num_cities low high : Nat) :
    Option CityMap :=
  if high ≤ low then none
  else
    some ((List.range num_cities).map (fun i =>
      (List.range num_cities).map (fun j => gen_entry draw i j)))

/-- All ways of picking one element out of a list: the picked element
together with the remaining list, in position order. -/
def selections : List Nat → List (Nat × List Nat)
  | [] => []
  | x :: xs => (x, xs) :: (selections xs).map (fun p => (p.1, x :: p.2))

/-- Fuelled permutation enumeration; with fuel equal to the list length it
produces all permutations in lexicographic (position) order, the order of
`itertools::Itertools::permutations`. -/
def permsFuel : Nat → List Nat → List (List Nat)
  | 0, _ => [[]]
  | n + 1, l => (selections l).flatMap (fun p => (permsFuel n p.2).map (fun q => p.1 :: q))

/-- `initial_path.permutations(num_cities)`: all permutations of the list,
in the lexicographic order itertools yields them. -/
def permutationsLex (l : List Nat) : List (List Nat) :=
  permsFuel l.length l

/-- The `min_by` fold of `brute_force_tsp`: starting from the first
permutation, each later candidate `q` replaces the accumulator `acc` iff
`cost(acc).cmp(&cost(q)) == Greater` (so the first-seen minimum is kept,
as `Iterator::min_by` does), evaluating `cost(acc)` then `cost(q)` and
propagating their panics. -/
def bf_fold (m : CityMap) : List Nat → List (List Nat) → PRes (List Nat)
  | acc, [] => .ret acc
  | acc, q :: qs =>
    match path_cost m acc with
    | .panicked => .panicked
    | .ret c1 =>
      match path_cost m q with
      | .panicked => .panicked
      | .ret c2 => bf_fold m (if cmpCost c1 c2 = .gt then q else acc) qs

/-- `fn brute_force_tsp(intercity_map) -> Option<(Vec<u16>, u64)>`:
validity check, enumeration of all permutations of `0..N`, `min_by` on
`path_cost`, `unwrap` (panic on an empty enumeration), then a final
`path_cost` of the winner. -/
def brute_force_tsp (m : CityMap) : PRes (Option (List Nat × Nat)) :=
  if valid_city_map m = false then .ret none
  else
    match permutationsLex (List.range m.length) with
    | [] => .panicked
    | p :: ps =>
      match bf_fold m p ps with
      | .panicked => .panicked
      | .ret best =>
        match path_cost m best with
        | .panicked => .panicked
        | .ret none => .ret none
        | .ret (some c) => .ret (some (best, c))

/-- One iteration body of `simulated_annealing_tsp`: compute the cost of the
freshly shuffled candidate and replace the incumbent iff
`new_cost < optimal_cost` (strict `Option<u64>` comparison). -/
def sa_step (m : CityMap) (st : List Nat × Option Nat) (newPath : List Nat) :
    PRes (List Nat × Option Nat) :=
  match path_cost m newPath with
  | .panicked => .panicked
  | .ret newCost =>
    .ret (if cmpCost newCost st.2 = .lt then (newPath, newCost) else st)

/-- The state of `simulated_annealing_tsp` after `n` loop iterations:
iteration `0` is the initialization of the incumbent to the identity
permutation `0..N` with its cost, and iteration `n + 1` shuffles a clone of
the incumbent (`shuffle n` models that `Vec::shuffle` call) and applies
`sa_step`. -/
def sa_loop (m : CityMap) (shuffle : Nat → List Nat → List Nat) :
    Nat → PRes (List Nat × Option Nat)
  | 0 =>
    match path_cost m (List.range m.length) with
    | .panicked => .panicked
    | .ret c => .ret (List.range m.length, c)
  | n + 1 =>
    match sa_loop m shuffle n with
    | .panicked => .panicked
    | .ret st => sa_step m st (shuffle n st.1)

/-- `let k = 32;` of the source. -/
def K : Nat := 32

/-- `fn simulated_annealing_tsp(intercity_map) -> Option<(Vec<u16>, u64)>`:
validity check, then `K` shuffled candidates folded by `sa_step`, returning
the final incumbent and its cost. -/
def simulated_annealing_tsp (m : CityMap) (shuffle : Nat → List Nat → List Nat) :
    PRes (Option (List Nat × Nat)) :=
  if valid_city_map m = false then .ret none
  else
    match sa_loop m shuffle K with
    | .panicked => .panicked
    | .ret (_, none) => .ret none
    | .ret (path, some c) => .ret (some (path, c))

/-- Total value of the lookup `m[i][j]`, meaningful when the lookup is in
bounds. -/
def edge_val (m : CityMap) (i j : Nat) : Nat :=
  (m.getD i []).getD j 0

/-- Total value of a path's cost: the sum of `m[path[k]][path[k+1]]` over
consecutive pairs, with out-of-bounds lookups defaulting to `0`. -/
def cost_val (m : CityMap) : List Nat → Nat
  | a :: b :: rest => edge_val m a b + cost_val m (b :: rest)
  | _ => 0

/-- Every matrix lookup `path_cost` performs on `p` is in bounds. -/
def lookups_in_bounds (m : CityMap) (p : List Nat) : Prop :=
  ∀ e ∈ pairsOf p, e.1 < m.length ∧ e.2 < (m.getD e.1 []).length

instance (m : CityMap) (p : List Nat) : Decidable (lookups_in_bounds m p) := by
  unfold lookups_in_bounds
  infer_instance

/-- `p` is, at cost `c`, the first minimum-cost element of the enumeration
`perms`: everything enumerated strictly before it costs strictly more, and
nothing enumerated after it costs less. -/
def is_first_min (m : CityMap) (perms : List (List Nat)) (p : List Nat) (c : Nat) : Prop :=
  ∃ l1 l2, perms = l1 ++ p :: l2 ∧
    (∀ z ∈ l1, ∀ cz, path_cost m z = .ret (some cz) → c < cz) ∧
    (∀ z ∈ l2, ∀ cz, path_cost m z = .ret (some cz) → c ≤ cz)

lemma getD_of_get? {α : Type} {l : List α} {i : Nat} {x d : α}
    (h : l.get? i = some x) : l.getD i d = x := by
  rw [List.getD_eq_get?, h]
  rfl

lemma cmpNat_eq_gt {a b : Nat} : cmpNat a b = .gt ↔ b < a := by
  constructor
  · intro h
    unfold cmpNat at h
    by_cases h1 : a < b
    · rw [if_pos h1] at h
      cases h
    · by_cases h2 : a = b
      · rw [if_neg h1, if_pos h2] at h
        cases h
      · omega
  · intro h
    unfold cmpNat
    rw [if_neg (by omega), if_neg (by omega)]

lemma cmpNat_eq_lt {a b : Nat} : cmpNat a b = .lt ↔ a < b := by
  constructor
  · intro h
    unfold cmpNat at h
    by_cases h1 : a < b
    · exact h1
    · by_cases h2 : a = b
      · rw [if_neg h1, if_pos h2] at h
        cases h
      · rw [if_neg h1, if_neg h2] at h
        cases h
  · intro h
    unfold cmpNat
    rw [if_pos h]

lemma cmpCost_some_lt {a b : Nat} : cmpCost (some a) (some b) = .lt ↔ a < b := by
  simpa [cmpCost] using cmpNat_eq_lt

lemma cmpCost_some_gt {a b : Nat} : cmpCost (some a) (some b) = .gt ↔ b < a := by
  simpa [cmpCost] using cmpNat_eq_gt

lemma valid_length_pos {m : CityMap} (h : valid_city_map m = true) : 0 < m.length := by
  unfold valid_city_map at h
  simp only [Bool.and_eq_true, bne_iff_ne, ne_eq, beq_iff_eq] at h
  omega

lemma mat_lookup_eval {m : CityMap} {i j : Nat} (hi : i < m.length)
    (hj : j < (m.getD i []).length) : mat_lookup m i j = .ret (edge_val m i j) := by
  unfold mat_lookup edge_val
  cases h : m.get? i with
  | none =>
    have := List.get?_eq_none.mp h
    omega
  | some row =>
    have hrow : m.getD i [] = row := getD_of_get? h
    rw [hrow] at hj ⊢
    cases h2 : row.get? j with
    | none =>
      have := List.get?_eq_none.mp h2
      omega
    | some v =>
      have hv : row.getD j 0 = v := getD_of_get? h2
      simp only [h2, hv]

lemma sumEdges_eval {m : CityMap} : ∀ (es : List (Nat × Nat)),
    (∀ e ∈ es, e.1 < m.length ∧ e.2 < (m.getD e.1 []).length) →
    sumEdges m es = .ret ((es.map (fun e => edge_val m e.1 e.2)).sum)
  | [], _ => rfl
  | e :: es, h => by
    have he := h e (by simp)
    have hes := sumEdges_eval (m := m) es (fun x hx => h x (by simp [hx]))
    unfold sumEdges
    rw [mat_lookup_eval he.1 he.2, hes]
    simp

lemma cost_val_eq_sum (m : CityMap) : ∀ p : List Nat,
    cost_val m p = ((pairsOf p).map (fun e => edge_val m e.1 e.2)).sum
  | [] => rfl
  | [_] => rfl
  | a :: b :: rest => by
    have ih := cost_val_eq_sum m (b :: rest)
    simp only [cost_val, pairsOf] at ih ⊢
    simp [List.zip, ih]

lemma path_cost_eval {m : CityMap} {p : List Nat} (hv : valid_city_map m = true)
    (hb : lookups_in_bounds m p) :
    path_cost m p = .ret (some (cost_val m p)) := by
  unfold path_cost
  rw [hv]
  simp only [Bool.true_eq_false, if_false]
  rw [sumEdges_eval _ hb, cost_val_eq_sum]

lemma path_cost_ne_ret_none {m : CityMap} {p : List Nat}
    (hv : valid_city_map m = true) : path_cost m p ≠ .ret none := by
  unfold path_cost
  rw [hv]
  simp only [Bool.true_eq_false, if_false]
  cases sumEdges m (pairsOf p) <;> simp

lemma path_cost_ret_some {m : CityMap} {p : List Nat} {v : Option Nat}
    (hv : valid_city_map m = true) (h : path_cost m p = .ret v) :
    ∃ k, v = some k := by
  cases v with
  | none => exact absurd h (path_cost_ne_ret_none hv)
  | some k => exact ⟨k, rfl⟩

/-- A square matrix (every row as long as the row count) together with
in-range path indices puts every lookup of `path_cost` in bounds. -/
lemma square_in_bounds {m : CityMap} {p : List Nat}
    (hsq : ∀ row ∈ m, row.length = m.length)
    (hp : ∀ i ∈ p, i < m.length) : lookups_in_bounds m p := by
  intro e he
  have h1 : e.1 ∈ p := (List.of_mem_zip he).1
  have h2 : e.2 ∈ p := List.mem_of_mem_tail (List.of_mem_zip he).2
  have he1 := hp e.1 h1
  have he2 := hp e.2 h2
  refine ⟨he1, ?_⟩
  have hrow : m.getD e.1 [] ∈ m := by
    cases h : m.get? e.1 with
    | none =>
      have := List.get?_eq_none.mp h
      omega
    | some row =>
      rw [getD_of_get? h]
      exact List.get?_mem h
  rw [hsq _ hrow]
  exact he2

lemma perm_range_in_range {q : List Nat} {n : Nat} (h : q.Perm (List.range n)) :
    ∀ i ∈ q, i < n := by
  intro i hi
  exact List.mem_range.mp (h.mem_iff.mp hi)

lemma mem_selections_decomp : ∀ {l : List Nat} {x : Nat} {rest : List Nat},
    (x, rest) ∈ selections l → ∃ l1 l2, l = l1 ++ x :: l2 ∧ rest = l1 ++ l2 := by
  intro l
  induction l with
  | nil =>
    intro x rest h
    cases h
  | cons a xs ih =>
    intro x rest h
    unfold selections at h
    rcases List.mem_cons.mp h with h0 | hmap
    · injection h0 with h1 h2
      subst h1
      subst h2
      exact ⟨[], _, rfl, rfl⟩
    · obtain ⟨⟨x', rest'⟩, hmem, heq⟩ := List.mem_map.mp hmap
      injection heq with h1 h2
      subst h1
      subst h2
      obtain ⟨l1, l2, rfl, rfl⟩ := ih hmem
      exact ⟨a :: l1, l2, rfl, rfl⟩

lemma decomp_mem_selections : ∀ {l1 : List Nat} {x : Nat} {l2 : List Nat},
    (x, l1 ++ l2) ∈ selections (l1 ++ x :: l2) := by
  intro l1
  induction l1 with
  | nil =>
    intro x l2
    unfold selections
    exact List.mem_cons_self _ _
  | cons a l1' ih =>
    intro x l2
    unfold selections
    refine List.mem_cons.mpr (Or.inr ?_)
    exact List.mem_map.mpr ⟨(x, l1' ++ l2), ih, rfl⟩

lemma mem_permsFuel : ∀ {n : Nat} {l q : List Nat}, l.length = n →
    (q ∈ permsFuel n l ↔ q.Perm l) := by
  intro n
  induction n with
  | zero =>
    intro l q hl
    have : l = [] := List.length_eq_zero.mp hl
    subst this
    unfold permsFuel
    constructor
    · intro h
      have : q = [] := by simpa using h
      simp [this]
    · intro h
      have : q = [] := List.perm_nil.mp h
      simp [this]
  | succ n ih =>
    intro l q hl
    unfold permsFuel
    constructor
    · intro h
      obtain ⟨⟨x, rest⟩, hsel, hq⟩ := List.mem_flatMap.mp h
      obtain ⟨q', hq', rfl⟩ := List.mem_map.mp hq
      obtain ⟨l1, l2, rfl, rfl⟩ := mem_selections_decomp hsel
      have hlen : (l1 ++ l2).length = n := by
        simp at hl ⊢
        omega
      have hperm : q'.Perm (l1 ++ l2) := (ih hlen).mp hq'
      exact ((hperm.cons x).trans List.perm_middle.symm)
    · intro h
      have hql : q.length = n + 1 := by rw [h.length_eq, hl]
      obtain ⟨x, q', rfl⟩ := List.exists_cons_of_ne_nil (l := q)
        (by intro hq; rw [hq] at hql; cases hql)
      have hx : x ∈ l := h.mem_iff.mp (List.mem_cons_self x q')
      obtain ⟨l1, l2, rfl⟩ := List.append_of_mem hx
      have hq' : q'.Perm (l1 ++ l2) :=
        ((h.trans List.perm_middle).cons_inv)
      have hlen : (l1 ++ l2).length = n := by
        simp at hl ⊢
        omega
      refine List.mem_flatMap.mpr ⟨(x, l1 ++ l2), decomp_mem_selections, ?_⟩
      exact List.mem_map.mpr ⟨q', (ih hlen).mpr hq', rfl⟩

lemma mem_permutationsLex {l q : List Nat} :
    q ∈ permutationsLex l ↔ q.Perm l :=
  mem_permsFuel rfl

lemma permutationsLex_ne_nil {l : List Nat} : permutationsLex l ≠ [] := by
  intro h
  have : l ∈ permutationsLex l := mem_permutationsLex.mpr (List.Perm.refl l)
  rw [h] at this
  cases this

lemma path_cost_inj {m : CityMap} {p : List Nat} {a b : Option Nat}
    (h1 : path_cost m p = .ret a) (h2 : path_cost m p = .ret b) : a = b := by
  rw [h1] at h2
  injection h2

lemma bf_fold_cons_panic1 {m : CityMap} {acc q : List Nat} {qs : List (List Nat)}
    (h1 : path_cost m acc = .panicked) : bf_fold m acc (q :: qs) = .panicked := by
  unfold bf_fold
  rw [h1]

lemma bf_fold_cons_panic2 {m : CityMap} {acc q : List Nat} {qs : List (List Nat)}
    {c1 : Option Nat} (h1 : path_cost m acc = .ret c1)
    (h2 : path_cost m q = .panicked) : bf_fold m acc (q :: qs) = .panicked := by
  unfold bf_fold
  rw [h1, h2]

lemma bf_fold_cons {m : CityMap} {acc q : List Nat} {qs : List (List Nat)}
    {c1 c2 : Option Nat} (h1 : path_cost m acc = .ret c1)
    (h2 : path_cost m q = .ret c2) :
    bf_fold m acc (q :: qs) =
      bf_fold m (if cmpCost c1 c2 = .gt then q else acc) qs := by
  conv_lhs => unfold bf_fold
  rw [h1, h2]

/-- When every candidate's cost evaluates without panicking, the `min_by`
fold returns one of the candidates. -/
lemma bf_fold_ret_of_costs {m : CityMap} : ∀ {ps : List (List Nat)} {acc : List Nat},
    (∀ z ∈ acc :: ps, ∃ cz, path_cost m z = .ret cz) →
    ∃ best, bf_fold m acc ps = .ret best ∧ best ∈ acc :: ps := by
  intro ps
  induction ps with
  | nil =>
    intro acc _
    exact ⟨acc, rfl, by simp⟩
  | cons q qs ih =>
    intro acc h
    obtain ⟨c1, hc1⟩ := h acc (by simp)
    obtain ⟨c2, hc2⟩ := h q (by simp)
    have hstep : bf_fold m acc (q :: qs) =
        bf_fold m (if cmpCost c1 c2 = .gt then q else acc) qs :=
      bf_fold_cons hc1 hc2
    have hcosts : ∀ z ∈ (if cmpCost c1 c2 = .gt then q else acc) :: qs,
        ∃ cz, path_cost m z = .ret cz := by
      intro z hz
      rcases List.mem_cons.mp hz with rfl | hz'
      · split
        · exact ⟨c2, hc2⟩
        · exact ⟨c1, hc1⟩
      · exact h z (by simp [hz'])
    obtain ⟨best, hb, hbm⟩ := ih hcosts
    refine ⟨best, hstep ▸ hb, ?_⟩
    rcases List.mem_cons.mp hbm with rfl | hbm'
    · split <;> simp
    · simp [hbm']

/-- The `min_by` fold keeps the first-seen minimum: its result splits the
scanned list into strictly-costlier earlier candidates and
no-cheaper later ones. -/
lemma bf_fold_first_min {m : CityMap} (hv : valid_city_map m = true) :
    ∀ {ps : List (List Nat)} {acc best : List Nat},
    bf_fold m acc ps = .ret best →
    ∃ l1 l2, acc :: ps = l1 ++ best :: l2 ∧
      ∀ cb, path_cost m best = .ret (some cb) →
        (∀ z ∈ l1, ∀ cz, path_cost m z = .ret (some cz) → cb < cz) ∧
        (∀ z ∈ l2, ∀ cz, path_cost m z = .ret (some cz) → cb ≤ cz) := by
  intro ps
  induction ps with
  | nil =>
    intro acc best h
    unfold bf_fold at h
    injection h with h
    subst h
    exact ⟨[], [], rfl, fun cb _ => ⟨by simp, by simp⟩⟩
  | cons q qs ih =>
    intro acc best h
    cases hc1 : path_cost m acc with
    | panicked =>
      rw [bf_fold_cons_panic1 hc1] at h
      cases h
    | ret c1 =>
      cases hc2 : path_cost m q with
      | panicked =>
        rw [bf_fold_cons_panic2 hc1 hc2] at h
        cases h
      | ret c2 =>
        rw [bf_fold_cons hc1 hc2] at h
        obtain ⟨k1, rfl⟩ := path_cost_ret_some hv hc1
        obtain ⟨k2, rfl⟩ := path_cost_ret_some hv hc2
        by_cases hgt : cmpCost (some k1) (some k2) = .gt
        · rw [if_pos hgt] at h
          have hk21 : k2 < k1 := cmpCost_some_gt.mp hgt
          obtain ⟨l1', l2', hdec, hfacts⟩ := ih h
          have hbq : ∀ cb, path_cost m best = .ret (some cb) → cb ≤ k2 := by
            intro cb hcb
            cases l1' with
            | nil =>
              simp only [List.nil_append] at hdec
              injection hdec with hqb _
              subst hqb
              have := path_cost_inj hcb hc2
              injection this with this
              omega
            | cons z0 l1'' =>
              simp only [List.cons_append] at hdec
              injection hdec with hqz _
              subst hqz
              exact Nat.le_of_lt
                ((hfacts cb hcb).1 q (List.mem_cons_self _ _) k2 hc2)
          refine ⟨acc :: l1', l2', ?_, ?_⟩
          · rw [List.cons_append, ← hdec]
          · intro cb hcb
            refine ⟨?_, (hfacts cb hcb).2⟩
            intro z hz cz hcz
            rcases List.mem_cons.mp hz with rfl | hz'
            · have := path_cost_inj hcz hc1
              injection this with this
              have := hbq cb hcb
              omega
            · exact (hfacts cb hcb).1 z hz' cz hcz
        · rw [if_neg hgt] at h
          have hk12 : k1 ≤ k2 := by
            have := (not_iff_not.mpr cmpCost_some_gt).mp hgt
            omega
          obtain ⟨l1', l2', hdec, hfacts⟩ := ih h
          cases l1' with
          | nil =>
            simp only [List.nil_append] at hdec
            injection hdec with hab hqs
            subst hab
            refine ⟨[], q :: l2', by rw [hqs]; rfl, ?_⟩
            intro cb hcb
            have hcbk1 : cb = k1 := Option.some.inj (path_cost_inj hcb hc1)
            refine ⟨by simp, ?_⟩
            intro z hz cz hcz
            rcases List.mem_cons.mp hz with rfl | hz'
            · have := path_cost_inj hcz hc2
              injection this with this
              omega
            · exact (hfacts cb hcb).2 z hz' cz hcz
          | cons z0 l1'' =>
            simp only [List.cons_append] at hdec
            injection hdec with haz hqs
            subst haz
            refine ⟨acc :: q :: l1'', l2', ?_, ?_⟩
            · rw [List.cons_append, List.cons_append, ← hqs]
            · intro cb hcb
              have hcbk1 : cb < k1 :=
                (hfacts cb hcb).1 acc (List.mem_cons_self _ _) k1 hc1
              refine ⟨?_, (hfacts cb hcb).2⟩
              intro z hz cz hcz
              rcases List.mem_cons.mp hz with rfl | hz'
              · have := path_cost_inj hcz hc1
                injection this with this
                omega
              rcases List.mem_cons.mp hz' with rfl | hz''
              · have := path_cost_inj hcz hc2
                injection this with this
                omega
              · exact (hfacts cb hcb).1 z (by simp [hz'']) cz hcz

lemma brute_force_eq {m : CityMap} (hv : valid_city_map m = true)
    {p0 : List Nat} {ps : List (List Nat)}
    (hperms : permutationsLex (List.range m.length) = p0 :: ps) :
    brute_force_tsp m =
      (match bf_fold m p0 ps with
       | .panicked => .panicked
       | .ret best =>
         match path_cost m best with
         | .panicked => .panicked
         | .ret none => .ret none
         | .ret (some c) => .ret (some (best, c))) := by
  unfold brute_force_tsp
  rw [hv, hperms]
  simp only [Bool.true_eq_false, if_false]

lemma brute_force_eq_fold_panic {m : CityMap} (hv : valid_city_map m = true)
    {p0 : List Nat} {ps : List (List Nat)}
    (hperms : permutationsLex (List.range m.length) = p0 :: ps)
    (hfold : bf_fold m p0 ps = .panicked) : brute_force_tsp m = .panicked := by
  rw [brute_force_eq hv hperms, hfold]

lemma brute_force_eq_pc_panic {m : CityMap} (hv : valid_city_map m = true)
    {p0 best : List Nat} {ps : List (List Nat)}
    (hperms : permutationsLex (List.range m.length) = p0 :: ps)
    (hfold : bf_fold m p0 ps = .ret best)
    (hpc : path_cost m best = .panicked) : brute_force_tsp m = .panicked := by
  rw [brute_force_eq hv hperms, hfold]
  simp only [hpc]

lemma brute_force_eq_pc_none {m : CityMap} (hv : valid_city_map m = true)
    {p0 best : List Nat} {ps : List (List Nat)}
    (hperms : permutationsLex (List.range m.length) = p0 :: ps)
    (hfold : bf_fold m p0 ps = .ret best)
    (hpc : path_cost m best = .ret none) : brute_force_tsp m = .ret none := by
  rw [brute_force_eq hv hperms, hfold]
  simp only [hpc]

lemma brute_force_eq_pc_some {m : CityMap} (hv : valid_city_map m = true)
    {p0 best : List Nat} {ps : List (List Nat)} {c : Nat}
    (hperms : permutationsLex (List.range m.length) = p0 :: ps)
    (hfold : bf_fold m p0 ps = .ret best)
    (hpc : path_cost m best = .ret (some c)) :
    brute_force_tsp m = .ret (some (best, c)) := by
  rw [brute_force_eq hv hperms, hfold]
  simp only [hpc]

/-- On a square valid matrix every enumerated permutation has a defined
(`Some`) cost, namely its `cost_val`. -/
lemma all_perm_costs {m : CityMap} (hv : valid_city_map m = true)
    (hsq : ∀ row ∈ m, row.length = m.length) :
    ∀ z ∈ permutationsLex (List.range m.length),
      path_cost m z = .ret (some (cost_val m z)) := by
  intro z hz
  have hperm := mem_permutationsLex.mp hz
  exact path_cost_eval hv (square_in_bounds hsq (perm_range_in_range hperm))

lemma sa_loop_zero_eq {m : CityMap} {shuffle : Nat → List Nat → List Nat}
    {c : Option Nat} (h : path_cost m (List.range m.length) = .ret c) :
    sa_loop m shuffle 0 = .ret (List.range m.length, c) := by
  unfold sa_loop
  rw [h]

lemma sa_loop_succ_eq {m : CityMap} {shuffle : Nat → List Nat → List Nat}
    {n : Nat} {st : List Nat × Option Nat} (h : sa_loop m shuffle n = .ret st) :
    sa_loop m shuffle (n + 1) = sa_step m st (shuffle n st.1) := by
  conv_lhs => unfold sa_loop
  rw [h]

lemma sa_loop_succ_panic {m : CityMap} {shuffle : Nat → List Nat → List Nat}
    {n : Nat} (h : sa_loop m shuffle n = .panicked) :
    sa_loop m shuffle (n + 1) = .panicked := by
  conv_lhs => unfold sa_loop
  rw [h]

lemma sa_step_eq {m : CityMap} {st : List Nat × Option Nat} {np : List Nat}
    {nc : Option Nat} (h : path_cost m np = .ret nc) :
    sa_step m st np = .ret (if cmpCost nc st.2 = .lt then (np, nc) else st) := by
  unfold sa_step
  rw [h]

lemma sa_step_panic {m : CityMap} {st : List Nat × Option Nat} {np : List Nat}
    (h : path_cost m np = .panicked) : sa_step m st np = .panicked := by
  unfold sa_step
  rw [h]

lemma cmpCost_self_ne_lt : ∀ v : Option Nat, cmpCost v v ≠ .lt := by
  intro v
  cases v with
  | none => simp [cmpCost]
  | some a => simp [cmpCost, cmpNat]

lemma sa_eq {m : CityMap} (hv : valid_city_map m = true)
    {shuffle : Nat → List Nat → List Nat} :
    simulated_annealing_tsp m shuffle =
      (match sa_loop m shuffle K with
       | .panicked => .panicked
       | .ret (_, none) => .ret none
       | .ret (path, some c) => .ret (some (path, c))) := by
  unfold simulated_annealing_tsp
  rw [hv]
  simp only [Bool.true_eq_false, if_false]

/-- Invariant of the annealing loop: after any number of accepted steps the
incumbent is a permutation of `0..N`, its stored cost is `Some` of its
actual cost, and that cost never exceeds the identity path's cost. -/
lemma sa_loop_invariant {m : CityMap} {shuffle : Nat → List Nat → List Nat}
    (hv : valid_city_map m = true) (hsh : ∀ i l, (shuffle i l).Perm l) :
    ∀ n st, sa_loop m shuffle n = .ret st →
      st.1.Perm (List.range m.length) ∧
      ∃ c, st.2 = some c ∧ path_cost m st.1 = .ret (some c) ∧
        ∀ c0, path_cost m (List.range m.length) = .ret (some c0) → c ≤ c0 := by
  intro n
  induction n with
  | zero =>
    intro st h
    unfold sa_loop at h
    cases hc : path_cost m (List.range m.length) with
    | panicked =>
      rw [hc] at h
      cases h
    | ret c =>
      rw [hc] at h
      injection h with h
      subst h
      obtain ⟨k, rfl⟩ := path_cost_ret_some hv hc
      refine ⟨List.Perm.refl _, k, rfl, hc, ?_⟩
      intro c0 h0
      simp only [PRes.ret.injEq, Option.some.injEq] at h0
      omega
  | succ n ih =>
    intro st h
    cases hn : sa_loop m shuffle n with
    | panicked =>
      rw [sa_loop_succ_panic hn] at h
      cases h
    | ret st' =>
      rw [sa_loop_succ_eq hn] at h
      cases hnc : path_cost m (shuffle n st'.1) with
      | panicked =>
        rw [sa_step_panic hnc] at h
        cases h
      | ret nc =>
        rw [sa_step_eq hnc] at h
        injection h with h
        subst h
        obtain ⟨b, rfl⟩ := path_cost_ret_some hv hnc
        obtain ⟨hperm', c', hst2, hpc', hbound'⟩ := ih st' hn
        by_cases hlt : cmpCost (some b) st'.2 = .lt
        · rw [if_pos hlt]
          refine ⟨(hsh n st'.1).trans hperm', b, rfl, hnc, ?_⟩
          intro c0 h0
          rw [hst2] at hlt
          have hb : b < c' := cmpCost_some_lt.mp hlt
          have := hbound' c0 h0
          omega
        · rw [if_neg hlt]
          exact ⟨hperm', c', hst2, hpc', hbound'⟩

lemma perm_range_props {p : List Nat} {n : Nat} (h : p.Perm (List.range n)) :
    p.length = n ∧ ∀ i < n, p.count i = 1 := by
  refine ⟨by rw [h.length_eq, List.length_range], ?_⟩
  intro i hi
  rw [h.count_eq]
  exact List.count_eq_one_of_mem (List.nodup_range n) (List.mem_range.mpr hi)

lemma bf_fold_mem {m : CityMap} : ∀ {ps : List (List Nat)} {acc best : List Nat},
    bf_fold m acc ps = .ret best → best ∈ acc :: ps := by
  intro ps
  induction ps with
  | nil =>
    intro acc best h
    unfold bf_fold at h
    injection h with h
    rw [← h]
    exact List.mem_cons_self _ _
  | cons q qs ih =>
    intro acc best h
    cases hc1 : path_cost m acc with
    | panicked =>
      rw [bf_fold_cons_panic1 hc1] at h
      cases h
    | ret c1 =>
      cases hc2 : path_cost m q with
      | panicked =>
        rw [bf_fold_cons_panic2 hc1 hc2] at h
        cases h
      | ret c2 =>
        rw [bf_fold_cons hc1 hc2] at h
        rcases List.mem_cons.mp (ih h) with heq | hmem
        · rw [heq]
          split <;> simp
        · simp [hmem]

lemma bool_eq_true_of_ne_false {b : Bool} (h : ¬ b = false) : b = true := by
  cases hb : b
  · exact absurd hb h
  · rfl

/-- Unpacking a successful `brute_force_tsp` run: the matrix was valid, the
returned path is one of the enumerated permutations, and the returned cost
is its `path_cost`. -/
lemma brute_force_ret_elim {m : CityMap} {p : List Nat} {c : Nat}
    (h : brute_force_tsp m = .ret (some (p, c))) :
    valid_city_map m = true ∧ p ∈ permutationsLex (List.range m.length) ∧
    path_cost m p = .ret (some c) ∧
    ∃ p0 ps, permutationsLex (List.range m.length) = p0 :: ps ∧
      bf_fold m p0 ps = .ret p := by
  by_cases hv : valid_city_map m = false
  · rw [show brute_force_tsp m = .ret none by
        unfold brute_force_tsp
        rw [if_pos hv]] at h
    injection h with h
    cases h
  · have hv' : valid_city_map m = true := bool_eq_true_of_ne_false hv
    cases hperms : permutationsLex (List.range m.length) with
    | nil => exact absurd hperms permutationsLex_ne_nil
    | cons p0 ps =>
      cases hfold : bf_fold m p0 ps with
      | panicked =>
        rw [brute_force_eq_fold_panic hv' hperms hfold] at h
        cases h
      | ret best =>
        cases hpc : path_cost m best with
        | panicked =>
          rw [brute_force_eq_pc_panic hv' hperms hfold hpc] at h
          cases h
        | ret v =>
          cases v with
          | none =>
            rw [brute_force_eq_pc_none hv' hperms hfold hpc] at h
            injection h with h
            cases h
          | some c' =>
            rw [brute_force_eq_pc_some hv' hperms hfold hpc] at h
            injection h with h
            injection h with h
            injection h with h1 h2
            subst h1
            subst h2
            exact ⟨hv', bf_fold_mem hfold, hpc, p0, ps, rfl, hfold⟩

/-- Unpacking a successful `simulated_annealing_tsp` run: the matrix was
valid and the final loop state is the returned path with its `Some` cost. -/
lemma sa_ret_elim {m : CityMap} {shuffle : Nat → List Nat → List Nat}
    {p : List Nat} {c : Nat}
    (h : simulated_annealing_tsp m shuffle = .ret (some (p, c))) :
    valid_city_map m = true ∧ sa_loop m shuffle K = .ret (p, some c) := by
  unfold simulated_annealing_tsp at h
  by_cases hv : valid_city_map m = false
  · rw [if_pos hv] at h
    injection h with h
    cases h
  · have hv' : valid_city_map m = true := bool_eq_true_of_ne_false hv
    rw [if_neg hv] at h
    refine ⟨hv', ?_⟩
    cases hK : sa_loop m shuffle K with
    | panicked =>
      rw [hK] at h
      cases h
    | ret st =>
      rw [hK] at h
      obtain ⟨sp, soc⟩ := st
      cases soc with
      | none =>
        injection h with h
        cases h
      | some c' =>
        injection h with h
        injection h with h
        injection h with h1 h2
        rw [h1, h2]

/-- Claim C1 (amended with the squareness hypothesis): on a validated matrix
all of whose rows have length `N`, `brute_force_tsp` returns `Some` of a
path and its `path_cost`, and no permutation of `0..N` costs strictly
less. -/
theorem brute_force_optimal (m : CityMap) (hv : valid_city_map m = true)
    (hsq : ∀ row ∈ m, row.length = m.length) :
    ∃ p c, brute_force_tsp m = .ret (some (p, c)) ∧
      path_cost m p = .ret (some c) ∧
      ∀ q, q.Perm (List.range m.length) →
        ∀ cq, path_cost m q = .ret (some cq) → c ≤ cq := by
  cases hperms : permutationsLex (List.range m.length) with
  | nil => exact absurd hperms permutationsLex_ne_nil
  | cons p0 ps =>
    have hall := all_perm_costs hv hsq
    rw [hperms] at hall
    have hcosts : ∀ z ∈ p0 :: ps, ∃ cz, path_cost m z = .ret cz :=
      fun z hz => ⟨some (cost_val m z), hall z hz⟩
    obtain ⟨best, hfold, hmem⟩ := bf_fold_ret_of_costs hcosts
    have hbest := hall best hmem
    refine ⟨best, cost_val m best, ?_, hbest, ?_⟩
    · exact brute_force_eq_pc_some hv hperms hfold hbest
    · intro q hq cq hcq
      have hqmem : q ∈ p0 :: ps := by
        rw [← hperms]
        exact mem_permutationsLex.mpr hq
      obtain ⟨l1, l2, hdec, hfacts⟩ := bf_fold_first_min hv hfold
      rw [hdec] at hqmem
      rcases List.mem_append.mp hqmem with h1 | h2
      · exact Nat.le_of_lt ((hfacts _ hbest).1 q h1 cq hcq)
      rcases List.mem_cons.mp h2 with rfl | h3
      · have : cq = cost_val m q := Option.some.inj (path_cost_inj hcq hbest)
        omega
      · exact (hfacts _ hbest).2 q h3 cq hcq

/-- Witness for C1 at the concrete symmetric 2-city matrix. -/
theorem brute_force_optimal_witness :
    valid_city_map [[0,1],[1,0]] = true ∧
    (∃ p c, brute_force_tsp [[0,1],[1,0]] = .ret (some (p, c)) ∧
      path_cost [[0,1],[1,0]] p = .ret (some c) ∧
      ∀ q, q.Perm (List.range ([[0,1],[1,0]] : CityMap).length) →
        ∀ cq, path_cost [[0,1],[1,0]] q = .ret (some cq) → c ≤ cq) :=
  ⟨by decide, brute_force_optimal [[0,1],[1,0]] (by decide) (by decide)⟩

/-- Counterexample to C1 as stated: the jagged matrix
`[[0,0,0],[0],[0,0,0]]` passes validation, yet `brute_force_tsp` panics on
it (out-of-bounds lookup while costing the very first permutation) instead
of returning `Some`. -/
theorem brute_force_valid_but_panics :
    valid_city_map [[0,0,0],[0],[0,0,0]] = true ∧
    brute_force_tsp [[0,0,0],[0],[0,0,0]] = .panicked := by
  constructor
  · decide
  · decide

/-- Claim C10: whichever solver returns `Some((path, cost))` on a matrix
with `N` rows, the path has length `N` and is a permutation of `0..N`
(each city index counted exactly once).  The `shuffle` parameter of the
heuristic solver is assumed to permute its input, as `Vec::shuffle`
does. -/
theorem solvers_return_permutation (m : CityMap) :
    (∀ p c, brute_force_tsp m = .ret (some (p, c)) →
      p.length = m.length ∧ p.Perm (List.range m.length) ∧
      ∀ i < m.length, p.count i = 1) ∧
    (∀ shuffle : Nat → List Nat → List Nat, (∀ i l, (shuffle i l).Perm l) →
      ∀ p c, simulated_annealing_tsp m shuffle = .ret (some (p, c)) →
      p.length = m.length ∧ p.Perm (List.range m.length) ∧
      ∀ i < m.length, p.count i = 1) := by
  constructor
  · intro p c h
    obtain ⟨hv, hmem, hpc, _⟩ := brute_force_ret_elim h
    have hperm := mem_permutationsLex.mp hmem
    obtain ⟨hlen, hcount⟩ := perm_range_props hperm
    exact ⟨hlen, hperm, hcount⟩
  · intro shuffle hsh p c h
    obtain ⟨hv, hK⟩ := sa_ret_elim h
    obtain ⟨hperm, _⟩ := sa_loop_invariant hv hsh K (p, some c) hK
    obtain ⟨hlen, hcount⟩ := perm_range_props hperm
    exact ⟨hlen, hperm, hcount⟩

/-- Witness for C10 applying the brute-force half at a concrete run. -/
theorem solvers_return_permutation_witness :
    brute_force_tsp [[0,1],[1,0]] = .ret (some ([0,1], 1)) ∧
    (([0,1] : List Nat).length = ([[0,1],[1,0]] : CityMap).length ∧
      ([0,1] : List Nat).Perm (List.range ([[0,1],[1,0]] : CityMap).length) ∧
      ∀ i < ([[0,1],[1,0]] : CityMap).length, ([0,1] : List Nat).count i = 1) :=
  ⟨by decide, (solvers_return_permutation [[0,1],[1,0]]).1 [0,1] 1 (by decide)⟩

/-- Claim C2 (amended): the validator rejects the empty matrix and accepts a
matrix exactly when it is non-empty and its FIRST row is as long as the row
count; in particular it accepts every `N × N` matrix with `N ≥ 1`, but it
does not inspect the other rows. -/
theorem valid_city_map_spec :
    valid_city_map [] = false ∧
    (∀ m : CityMap, valid_city_map m = true ↔
      (m ≠ [] ∧ (m.getD 0 []).length = m.length)) ∧
    (∀ m : CityMap, m ≠ [] → (∀ row ∈ m, row.length = m.length) →
      valid_city_map m = true) := by
  refine ⟨rfl, ?_, ?_⟩
  · intro m
    unfold valid_city_map
    simp only [Bool.and_eq_true, bne_iff_ne, ne_eq, beq_iff_eq]
    constructor
    · rintro ⟨h1, h2⟩
      exact ⟨fun hm => h1 (by rw [hm]; rfl), h2⟩
    · rintro ⟨h1, h2⟩
      exact ⟨fun hl => h1 (List.length_eq_zero.mp hl), h2⟩
  · intro m hne hsq
    obtain ⟨r, rest, rfl⟩ := List.exists_cons_of_ne_nil hne
    unfold valid_city_map
    simp only [Bool.and_eq_true, bne_iff_ne, ne_eq, beq_iff_eq]
    exact ⟨by simp, hsq r (by simp)⟩

/-- Witness for C2 at the 1×1 matrix. -/
theorem valid_city_map_spec_witness :
    ([[0]] : CityMap) ≠ [] ∧ valid_city_map [[0]] = true :=
  ⟨by decide, valid_city_map_spec.2.2 [[0]] (by decide) (by decide)⟩

/-- Counterexample to C2 as stated: `[[0,0],[0]]` is not square (its second
row has length 1 while there are 2 rows), yet the validator accepts it —
only the first row's length is checked. -/
theorem valid_city_map_accepts_non_square :
    valid_city_map [[0,0],[0]] = true ∧
    ¬ (∀ row ∈ ([[0,0],[0]] : CityMap),
        row.length = ([[0,0],[0]] : CityMap).length) := by
  exact ⟨by decide, by decide⟩

/-- Claim C5: whenever `brute_force_tsp` returns, the returned path is the
first minimum-cost permutation in the lexicographic enumeration order
(everything enumerated earlier costs strictly more, nothing later costs
less); in particular on the 4×4 test matrix it returns `[0,3,2,1]` with
cost 3 = `path_cost` of that path. -/
theorem brute_force_first_min :
    (∀ (m : CityMap) (p : List Nat) (c : Nat), valid_city_map m = true →
      brute_force_tsp m = .ret (some (p, c)) →
      is_first_min m (permutationsLex (List.range m.length)) p c) ∧
    brute_force_tsp [[2,2,2,1],[1,2,2,2],[2,1,2,2],[2,2,1,2]] =
      .ret (some ([0,3,2,1], 3)) ∧
    path_cost [[2,2,2,1],[1,2,2,2],[2,1,2,2],[2,2,1,2]] [0,3,2,1] =
      .ret (some 3) := by
  refine ⟨?_, by decide, by decide⟩
  intro m p c hv h
  obtain ⟨_, _, hpc, p0, ps, hperms, hfold⟩ := brute_force_ret_elim h
  obtain ⟨l1, l2, hdec, hfacts⟩ := bf_fold_first_min hv hfold
  refine ⟨l1, l2, ?_, (hfacts c hpc).1, (hfacts c hpc).2⟩
  rw [hperms]
  exact hdec

/-- Witness for C5 at the 4×4 test matrix. -/
theorem brute_force_first_min_witness :
    valid_city_map [[2,2,2,1],[1,2,2,2],[2,1,2,2],[2,2,1,2]] = true ∧
    is_first_min [[2,2,2,1],[1,2,2,2],[2,1,2,2],[2,2,1,2]]
      (permutationsLex
        (List.range ([[2,2,2,1],[1,2,2,2],[2,1,2,2],[2,2,1,2]] : CityMap).length))
      [0,3,2,1] 3 :=
  ⟨by decide, brute_force_first_min.1 [[2,2,2,1],[1,2,2,2],[2,1,2,2],[2,2,1,2]]
    [0,3,2,1] 3 (by decide) (by decide)⟩

/-- Claim C3: when the heuristic solver returns `Some((path, cost))` on a
valid matrix, the cost is realized by a permutation of `0..N` (hence it is
at least any lower bound of all permutation costs, in particular the true
minimum when it exists), and it is at most the identity path's cost. -/
theorem sa_cost_bounds (m : CityMap) (shuffle : Nat → List Nat → List Nat)
    (hv : valid_city_map m = true) (hsh : ∀ i l, (shuffle i l).Perm l) :
    ∀ p c, simulated_annealing_tsp m shuffle = .ret (some (p, c)) →
      (p.Perm (List.range m.length) ∧ path_cost m p = .ret (some c)) ∧
      (∀ cmin,
        ((∃ q, q.Perm (List.range m.length) ∧ path_cost m q = .ret (some cmin)) ∧
          ∀ q cq, q.Perm (List.range m.length) → path_cost m q = .ret (some cq) →
            cmin ≤ cq) → cmin ≤ c) ∧
      (∀ cid, path_cost m (List.range m.length) = .ret (some cid) → c ≤ cid) := by
  intro p c h
  obtain ⟨_, hK⟩ := sa_ret_elim h
  obtain ⟨hperm, c', hc'eq, hpc, hbound⟩ := sa_loop_invariant hv hsh K (p, some c) hK
  have hcc : c = c' := Option.some.inj hc'eq
  subst hcc
  refine ⟨⟨hperm, hpc⟩, ?_, hbound⟩
  intro cmin hmin
  exact hmin.2 p c hperm hpc

/-- Witness for C3 at the symmetric 2-city matrix with an identity
shuffle. -/
theorem sa_cost_bounds_witness :
    valid_city_map [[0,1],[1,0]] = true ∧
    simulated_annealing_tsp [[0,1],[1,0]] (fun _ l => l) = .ret (some ([0,1], 1)) ∧
    (([0,1] : List Nat).Perm (List.range ([[0,1],[1,0]] : CityMap).length) ∧
      path_cost [[0,1],[1,0]] [0,1] = .ret (some 1)) :=
  ⟨by decide, by decide,
    (sa_cost_bounds [[0,1],[1,0]] (fun _ l => l) (by decide)
      (fun _ l => List.Perm.refl l) [0,1] 1 (by decide)).1⟩

/-- Claim C4: the heuristic solver initializes the incumbent to the identity
permutation with its cost, runs exactly `K = 32` draws with no early
termination, and a candidate replaces the incumbent iff its cost is
strictly smaller (`Option` comparison, which on two `Some` costs is the
numeric strict order); an equal-cost candidate never displaces the
incumbent. -/
theorem sa_structure (m : CityMap) (shuffle : Nat → List Nat → List Nat)
    (hv : valid_city_map m = true) :
    K = 32 ∧
    (∀ c, path_cost m (List.range m.length) = .ret c →
      sa_loop m shuffle 0 = .ret (List.range m.length, c)) ∧
    (∀ n st, sa_loop m shuffle n = .ret st →
      sa_loop m shuffle (n + 1) = sa_step m st (shuffle n st.1)) ∧
    (∀ st np nc, path_cost m np = .ret nc →
      sa_step m st np = .ret (if cmpCost nc st.2 = Ordering.lt then (np, nc) else st)) ∧
    (∀ a b, cmpCost (some a) (some b) = Ordering.lt ↔ a < b) ∧
    (∀ st np, path_cost m np = .ret st.2 → sa_step m st np = .ret st) ∧
    simulated_annealing_tsp m shuffle =
      (match sa_loop m shuffle K with
       | .panicked => .panicked
       | .ret (_, none) => .ret none
       | .ret (path, some c) => .ret (some (path, c))) := by
  refine ⟨rfl, ?_, ?_, ?_, ?_, ?_, sa_eq hv⟩
  · exact fun c h => sa_loop_zero_eq h
  · exact fun n st h => sa_loop_succ_eq h
  · exact fun st np nc h => sa_step_eq h
  · exact fun a b => cmpCost_some_lt
  · intro st np h
    rw [sa_step_eq h, if_neg (cmpCost_self_ne_lt st.2)]

/-- Witness for C4 at the symmetric 2-city matrix. -/
theorem sa_structure_witness :
    valid_city_map [[0,1],[1,0]] = true ∧ K = 32 :=
  ⟨by decide, (sa_structure [[0,1],[1,0]] (fun _ l => l) (by decide)).1⟩

lemma cost_val_cons_ne_nil {m : CityMap} {x : Nat} {t : List Nat} (h : t ≠ []) :
    cost_val m (x :: t) = edge_val m x (t.headD 0) + cost_val m t := by
  cases t with
  | nil => exact absurd rfl h
  | cons y t' => rfl

lemma pairsOf_cons_ne_nil {x : Nat} {t : List Nat} (h : t ≠ []) :
    pairsOf (x :: t) = (x, t.headD 0) :: pairsOf t := by
  cases t with
  | nil => exact absurd rfl h
  | cons y t' => rfl

lemma headD_append_two_eq (q : List Nat) (a b : Nat) :
    (q ++ [a, b]).headD 0 = (q ++ [a]).headD 0 := by
  cases q <;> rfl

lemma cost_val_append_two {m : CityMap} : ∀ (q : List Nat) (a b : Nat),
    cost_val m (q ++ [a, b]) = cost_val m (q ++ [a]) + edge_val m a b := by
  intro q
  induction q with
  | nil =>
    intro a b
    simp [cost_val]
  | cons x q' ih =>
    intro a b
    rw [List.cons_append, cost_val_cons_ne_nil (by simp),
      List.cons_append, cost_val_cons_ne_nil (by simp), ih,
      headD_append_two_eq]
    omega

lemma pairsOf_append_two : ∀ (q : List Nat) (a b : Nat),
    pairsOf (q ++ [a, b]) = pairsOf (q ++ [a]) ++ [(a, b)] := by
  intro q
  induction q with
  | nil =>
    intro a b
    rfl
  | cons x q' ih =>
    intro a b
    rw [List.cons_append, pairsOf_cons_ne_nil (by simp),
      List.cons_append, pairsOf_cons_ne_nil (by simp), ih,
      headD_append_two_eq]
    rfl

lemma exists_append_two : ∀ (p : List Nat), 2 ≤ p.length →
    ∃ q a b, p = q ++ [a, b]
  | [], h => by simp at h
  | [x], h => by simp at h
  | [a, b], _ => ⟨[], a, b, rfl⟩
  | x :: y :: z :: rest, _ => by
    obtain ⟨q, a, b, hq⟩ := exists_append_two (y :: z :: rest) (by simp)
    exact ⟨x :: q, a, b, by rw [List.cons_append, ← hq]⟩

lemma getD_append_two_left : ∀ (q : List Nat) (a b : Nat),
    (q ++ [a, b]).getD q.length 0 = a := by
  intro q a b
  induction q with
  | nil => rfl
  | cons x q' ih =>
    rw [List.cons_append, List.length_cons, List.getD_cons_succ]
    exact ih

lemma getD_append_two_right : ∀ (q : List Nat) (a b : Nat),
    (q ++ [a, b]).getD (q.length + 1) 0 = b := by
  intro q a b
  induction q with
  | nil => rfl
  | cons x q' ih =>
    rw [List.cons_append, List.length_cons, List.getD_cons_succ]
    exact ih

lemma dropLast_append_two (q : List Nat) (a b : Nat) :
    (q ++ [a, b]).dropLast = q ++ [a] := by
  have h : q ++ [a, b] = (q ++ [a]) ++ [b] := by simp
  rw [h, List.dropLast_concat]

/-- Claim C6 (amended with the squareness hypothesis): on a validated
matrix all of whose rows have length `N`, `path_cost` of a path with
indices in `[0, N)` is `Some` of the sum of `m[path[k]][path[k+1]]` over
consecutive pairs, and a path of length 0 or 1 costs 0. -/
theorem path_cost_sum (m : CityMap) (p : List Nat)
    (hv : valid_city_map m = true)
    (hsq : ∀ row ∈ m, row.length = m.length)
    (hp : ∀ i ∈ p, i < m.length) :
    path_cost m p = .ret (some
      (((pairsOf p).map (fun e => (m.getD e.1 []).getD e.2 0)).sum)) ∧
    (p.length ≤ 1 → path_cost m p = .ret (some 0)) := by
  have hb := square_in_bounds hsq hp
  have heval := path_cost_eval hv hb
  constructor
  · rw [heval, cost_val_eq_sum]
    rfl
  · intro hlen
    rw [heval]
    cases p with
    | nil => rfl
    | cons x t =>
      cases t with
      | nil => rfl
      | cons y t' => simp at hlen

/-- Witness for C6 at the symmetric 2-city matrix. -/
theorem path_cost_sum_witness :
    valid_city_map [[0,1],[1,0]] = true ∧
    (path_cost [[0,1],[1,0]] [0,1] = .ret (some
      (((pairsOf [0,1]).map
        (fun e => (([[0,1],[1,0]] : CityMap).getD e.1 []).getD e.2 0)).sum)) ∧
     (([0,1] : List Nat).length ≤ 1 → path_cost [[0,1],[1,0]] [0,1] = .ret (some 0))) :=
  ⟨by decide, path_cost_sum [[0,1],[1,0]] [0,1] (by decide) (by decide) (by decide)⟩

/-- Counterexample to C6 as stated: `[[0,0],[5]]` passes validation and the
path `[1,1]` has all indices in `[0,2)`, yet `path_cost` panics (row 1 has
no column 1) instead of returning `Some` of a sum. -/
theorem path_cost_in_range_panics :
    valid_city_map [[0,0],[5]] = true ∧
    (∀ i ∈ ([1,1] : List Nat), i < ([[0,0],[5]] : CityMap).length) ∧
    path_cost [[0,0],[5]] [1,1] = .panicked :=
  ⟨by decide, by decide, by decide⟩

/-- Claim C7: cost additivity — for a valid matrix and a path of length at
least 2 whose lookups are in bounds, the path's cost is the cost of the
path without its last element plus the distance between the last two
elements. -/
theorem path_cost_additive (m : CityMap) (p : List Nat)
    (hv : valid_city_map m = true) (hlen : 2 ≤ p.length)
    (hb : lookups_in_bounds m p) :
    ∃ s, path_cost m p.dropLast = .ret (some s) ∧
      path_cost m p = .ret (some (s +
        edge_val m (p.getD (p.length - 2) 0) (p.getD (p.length - 1) 0))) := by
  obtain ⟨q, a, b, rfl⟩ := exists_append_two p hlen
  have hpairs := pairsOf_append_two q a b
  have hb' : lookups_in_bounds m (q ++ [a]) := by
    intro e he
    exact hb e (by rw [hpairs]; exact List.mem_append_left _ he)
  have hidx2 : (q ++ [a, b]).getD ((q ++ [a, b]).length - 2) 0 = a := by
    rw [show (q ++ [a, b]).length - 2 = q.length by simp]
    exact getD_append_two_left q a b
  have hidx1 : (q ++ [a, b]).getD ((q ++ [a, b]).length - 1) 0 = b := by
    rw [show (q ++ [a, b]).length - 1 = q.length + 1 by simp]
    exact getD_append_two_right q a b
  refine ⟨cost_val m (q ++ [a]), ?_, ?_⟩
  · rw [dropLast_append_two]
    exact path_cost_eval hv hb'
  · rw [path_cost_eval hv hb, hidx2, hidx1, cost_val_append_two]

/-- Witness for C7 at the symmetric 2-city matrix. -/
theorem path_cost_additive_witness :
    valid_city_map [[0,1],[1,0]] = true ∧ 2 ≤ ([0,1] : List Nat).length ∧
    lookups_in_bounds [[0,1],[1,0]] [0,1] ∧
    (∃ s, path_cost [[0,1],[1,0]] ([0,1] : List Nat).dropLast = .ret (some s) ∧
      path_cost [[0,1],[1,0]] [0,1] = .ret (some (s +
        edge_val [[0,1],[1,0]]
          (([0,1] : List Nat).getD (([0,1] : List Nat).length - 2) 0)
          (([0,1] : List Nat).getD (([0,1] : List Nat).length - 1) 0)))) :=
  ⟨by decide, by decide, by decide,
    path_cost_additive [[0,1],[1,0]] [0,1] (by decide) (by decide) (by decide)⟩

/-- Claim C8: `generate_map` fails exactly on degenerate weight ranges —
`None` iff `high ≤ low` (so `(w, w)` is always rejected), and a matrix is
produced whenever `low < high`. -/
theorem generate_map_range_check (draw : Nat → Nat → Nat) (n low high : Nat) :
    (generate_map draw n low high = none ↔ high ≤ low) ∧
    (∀ w, generate_map draw n w w = none) ∧
    (low < high → ∃ M, generate_map draw n low high = some M) := by
  refine ⟨?_, ?_, ?_⟩
  · by_cases h : high ≤ low <;> simp [generate_map, h]
  · intro w
    simp [generate_map]
  · intro h
    refine ⟨(List.range n).map (fun i =>
      (List.range n).map (fun j => gen_entry draw i j)), ?_⟩
    unfold generate_map
    rw [if_neg (by omega)]

/-- Witness for C8 with a 2-city request over the range `[0, 1)`. -/
theorem generate_map_range_check_witness :
    0 < 1 ∧ (∃ M, generate_map (fun _ _ => 0) 2 0 1 = some M) :=
  ⟨by decide, (generate_map_range_check (fun _ _ => 0) 2 0 1).2.2 (by decide)⟩

/-- Claim C9 (amended with the squareness hypothesis): when the validated
matrix moreover has all rows of length `N`, a path with indices in
`[0, N)` only triggers in-bounds lookups inside `path_cost`, which hence
returns without panicking. -/
theorem path_cost_safe (m : CityMap) (p : List Nat)
    (hv : valid_city_map m = true)
    (hsq : ∀ row ∈ m, row.length = m.length)
    (hp : ∀ i ∈ p, i < m.length) :
    lookups_in_bounds m p ∧ ∃ s, path_cost m p = .ret (some s) := by
  have hb := square_in_bounds hsq hp
  exact ⟨hb, cost_val m p, path_cost_eval hv hb⟩

/-- Witness for C9 at the symmetric 2-city matrix. -/
theorem path_cost_safe_witness :
    valid_city_map [[0,1],[1,0]] = true ∧
    (lookups_in_bounds [[0,1],[1,0]] [1,0] ∧
      ∃ s, path_cost [[0,1],[1,0]] [1,0] = .ret (some s)) :=
  ⟨by decide, path_cost_safe [[0,1],[1,0]] [1,0] (by decide) (by decide) (by decide)⟩

/-- Counterexample to C9 as stated: `[[0,0],[7]]` passes validation and the
path `[1,1]` has in-range indices, yet the lookup `m[1][1]` is out of
bounds and `path_cost` panics — validation alone does not rule out
out-of-bounds access. -/
theorem valid_city_map_insufficient_for_bounds :
    valid_city_map [[0,0],[7]] = true ∧
    (∀ i ∈ ([1,1] : List Nat), i < ([[0,0],[7]] : CityMap).length) ∧
    ¬ lookups_in_bounds [[0,0],[7]] [1,1] ∧
    path_cost [[0,0],[7]] [1,1] = .panicked :=
  ⟨by decide, by decide, by decide, by decide⟩

example : valid_city_map [[2,2],[2,2]] = true := by decide
example : valid_city_map [[2,2],[2]] = true := by decide
example : valid_city_map [] = false := by decide
example : path_cost [[2,2,2,2],[2,2,2,2],[2,2,2,2],[2,2,2,2]] [0,1,2,3] = .ret (some 6) := by decide
example : path_cost [[0,0],[5]] [1,1] = .panicked := by decide
example : permutationsLex [0,1,2] =
    [[0,1,2],[0,2,1],[1,0,2],[1,2,0],[2,0,1],[2,1,0]] := by decide
example : brute_force_tsp [[2,2,2,1],[1,2,2,2],[2,1,2,2],[2,2,1,2]] =
    .ret (some ([0,3,2,1], 3)) := by decide
example : brute_force_tsp [[0,0,0],[0],[0,0,0]] = .panicked := by decide
example : simulated_annealing_tsp [[0,1],[1,0]] (fun _ l => l) =
    .ret (some ([0,1], 1)) := by decide
example : generate_map (fun _ _ => 3) 2 1 1 = none := by decide
